import Mathlib

/-!
# Verification of the xray report visualizer (`xray_report_viz.py`)

A shallow embedding of the report-to-flowchart pipeline:
`parse_named_modules` → `ensure_parents` → `filter_by_max_depth` →
`generate_mermaid`, together with proofs of the specified properties.

Strings are modelled as `List Char` (the ASCII fragment of Python `str`):
character classification (`isalnum`, `isdigit`, whitespace) is modelled on
the ASCII range, which covers every input the program is specified for.
-/

namespace XRayViz

/-- Python strings are modelled as lists of characters. -/
abbrev Str := List Char

/-- Coerce a Lean string literal into the model's string type. -/
def s (x : String) : Str := x.data

/-- ASCII model of the characters matched by the regex class `\s`
(also the characters stripped by Python `str.strip()`). -/
def isPySpace (c : Char) : Bool :=
  c = ' ' || c = '\t' || c = '\n' || c = '\r' || c = '\x0b' || c = '\x0c'

/-- Python `str.lstrip()`. -/
def pyLStrip (cs : Str) : Str := cs.dropWhile isPySpace

/-- Python `str.rstrip()`. -/
def pyRStrip (cs : Str) : Str := (cs.reverse.dropWhile isPySpace).reverse

/-- Python `str.strip()`. -/
def pyStrip (cs : Str) : Str := pyRStrip (pyLStrip cs)

/-- Line-break characters recognised by Python `str.splitlines()`. -/
def isLineBreak (c : Char) : Bool :=
  c = '\n' || c = '\r' || c = '\x0b' || c = '\x0c' ||
  c = '\x1c' || c = '\x1d' || c = '\x1e' || c = '\x85' ||
  c = '\u2028' || c = '\u2029'

/-- Worker for `pySplitlines`; `cur` holds the current line reversed. -/
def pySplitlinesAux (cur : Str) : Str → List Str
  | [] => if cur.isEmpty then [] else [cur.reverse]
  | '\r' :: '\n' :: rest => cur.reverse :: pySplitlinesAux [] rest
  | c :: rest =>
    if isLineBreak c then cur.reverse :: pySplitlinesAux [] rest
    else pySplitlinesAux (c :: cur) rest

/-- Python `str.splitlines()` (used on the report text, source line 71). -/
def pySplitlines (cs : Str) : List Str := pySplitlinesAux [] cs

/-- Python `raw.rstrip("\n")` (source line 76). -/
def rstripNL (cs : Str) : Str := (cs.reverse.dropWhile (fun c => c = '\n')).reverse

/-- Python `str.split(sep)` for a one-character separator
(used as `path.split(".")` in `path_depth` and `ensure_parents`). -/
def splitAll (sep : Char) : Str → List Str
  | [] => [[]]
  | c :: rest =>
    if c = sep then [] :: splitAll sep rest
    else
      match splitAll sep rest with
      | h :: t => (c :: h) :: t
      | [] => [[c]]

/-- Python `sep.join(parts)` for a one-character separator. -/
def intercalateC (sep : Char) : List Str → Str
  | [] => []
  | [x] => x
  | x :: xs => x ++ sep :: intercalateC sep xs

/-- Lexicographic comparison of code points: the Boolean form of Python's
`<=` on strings, which underlies `sorted`. -/
def strLeB : Str → Str → Bool
  | [], _ => true
  | _ :: _, [] => false
  | a :: as, b :: bs =>
    if a.toNat < b.toNat then true
    else if b.toNat < a.toNat then false
    else strLeB as bs

/-- The ordering relation used to model Python `sorted` on strings. -/
def strLe (a b : Str) : Prop := strLeB a b = true

instance : DecidableRel strLe := fun a b => inferInstanceAs (Decidable (strLeB a b = true))

/-- `str(n)` for a natural number (the `stack_counter` interpolation). -/
def natToStr (n : Nat) : Str := Nat.toDigits 10 n

/-- A regex word character (`\w`): alphanumeric or underscore. -/
def isWordChar (c : Char) : Bool := c.isAlphanum || c = '_'

/-- Does `cs` start (case-insensitively) with the pattern `pat` (given in
lower case)?  Returns the remainder after the pattern on success. -/
def startsWithCI : Str → Str → Option Str
  | [], rest => some rest
  | _ :: _, [] => none
  | p :: ps, c :: cs => if c.toLower = p then startsWithCI ps cs else none

/-- Model of `NAMED_MODULES_HEADER_RE.match(line)` for the pattern
`^===\s+named_modules\b` with `re.IGNORECASE` (source line 34). -/
def namedModulesHeaderMatch (cs : Str) : Bool :=
  match cs with
  | '=' :: '=' :: '=' :: rest =>
    (match rest with
     | c :: _ => isPySpace c
     | [] => false) &&
    (match startsWithCI (s "named_modules") (rest.dropWhile isPySpace) with
     | some [] => true
     | some (c :: _) => !isWordChar c
     | none => false)
  | _ => false

/-- Model of `SECTION_HEADER_RE.match(line)` for the pattern
`^===\s+\S+` (source line 35). -/
def sectionHeaderMatch (cs : Str) : Bool :=
  match cs with
  | '=' :: '=' :: '=' :: rest =>
    (match rest with
     | c :: _ => isPySpace c
     | [] => false) &&
    !(rest.dropWhile isPySpace).isEmpty
  | _ => false

/-- Model of `LINE_RE.match(line)` for the pattern
`^(?P<path>\S+)\s+(?P<cls>.+?)\s*$` (source line 36), returning the two
captured groups.  The match succeeds exactly when the line starts with a
non-empty run of non-whitespace (the `path` group) followed by at least two
further characters beginning with whitespace; the lazy `cls` group then
captures the remainder with its maximal trailing whitespace given back to
`\s*`, except that when the remainder is all whitespace the final character
is captured. -/
def lineMatch (cs : Str) : Option (Str × Str) :=
  let path := cs.takeWhile (fun c => !isPySpace c)
  let rest := cs.dropWhile (fun c => !isPySpace c)
  if path.isEmpty || rest.length < 2 then none
  else
    let r2 := pyLStrip rest
    let clsGroup := if r2.isEmpty then rest.drop (rest.length - 1) else pyRStrip r2
    some (path, clsGroup)

/-- `Node` dataclass (source lines 39–42): a module path plus an optional
class name (`none` for synthesized parents). -/
structure Node where
  path : Str
  cls : Option Str
deriving DecidableEq, Repr, Inhabited

/-- The `Dict[str, Node]` of the source, modelled as an insertion-ordered
association list (Python `dict` semantics). -/
abbrev Dict := List (Str × Node)

/-- `k in d` for the modelled dict. -/
def isKey (d : Dict) (k : Str) : Bool := d.any (fun pn => pn.1 = k)

/-- `d[k] = v` for the modelled dict: overwrite in place, else append. -/
def dictInsert (d : Dict) (k : Str) (v : Node) : Dict :=
  match d with
  | [] => [(k, v)]
  | e :: rest => if e.1 = k then (k, v) :: rest else e :: dictInsert rest k v

/-- `d[k]` lookup for the modelled dict. -/
def lookupD (d : Dict) (k : Str) : Option Node :=
  (d.find? (fun pn => pn.1 = k)).map (fun pn => pn.2)

/-- `path_depth` (source lines 45–46): the number of dot-separated
segments. -/
def path_depth (p : Str) : Nat := (splitAll '.' p).length

/-- `sanitize_label` (source lines 49–54): remove the six bracket
characters from a label. -/
def sanitize_label (cs : Str) : Str :=
  cs.filter (fun c =>
    !(c = '(' || c = ')' || c = '[' || c = ']' || c = '\x7b' || c = '\x7d'))

/-- The character substitution inside `mermaid_id_for_path`: keep
alphanumerics and underscores, replace everything else by an underscore. -/
def substChar (ch : Char) : Char :=
  if ch.isAlphanum || ch = '_' then ch else '_'

/-- `mermaid_id_for_path` (source lines 57–67). -/
def mermaid_id_for_path (path : Str) : Str :=
  let out := path.map substChar
  match out with
  | c :: _ => if c.isDigit then 'n' :: '_' :: out else out
  | [] => []

/-- The loop body of `parse_named_modules` (source lines 75–96), recursing
over the report's lines with the `in_named` flag and the accumulated dict. -/
def parseGo : List Str → Bool → Dict → Dict
  | [], _, nodes => nodes
  | raw :: ls, in_named, nodes =>
    let line := rstripNL raw
    if !in_named then
      if namedModulesHeaderMatch (pyStrip line) then parseGo ls true nodes
      else parseGo ls false nodes
    else
      if sectionHeaderMatch (pyStrip line) && !namedModulesHeaderMatch (pyStrip line) then
        nodes
      else if (pyStrip line).isEmpty then parseGo ls in_named nodes
      else
        match lineMatch line with
        | none => parseGo ls in_named nodes
        | some (p, c) =>
          parseGo ls in_named
            (dictInsert nodes (pyStrip p) (Node.mk (pyStrip p) (some (pyStrip c))))

/-- `parse_named_modules` (source lines 70–98). -/
def parse_named_modules (report_text : Str) : Dict :=
  parseGo (pySplitlines report_text) false []

/-- The sequence of `(path, cls)` groups of the data lines matched inside
the `named_modules` section, in report order: the same traversal as
`parseGo`, collecting the matched records instead of folding them into a
dict.  Used to state which record survives duplicate paths. -/
def recordsGo : List Str → Bool → List (Str × Str)
  | [], _ => []
  | raw :: ls, in_named =>
    let line := rstripNL raw
    if !in_named then
      if namedModulesHeaderMatch (pyStrip line) then recordsGo ls true
      else recordsGo ls false
    else
      if sectionHeaderMatch (pyStrip line) && !namedModulesHeaderMatch (pyStrip line) then
        []
      else if (pyStrip line).isEmpty then recordsGo ls in_named
      else
        match lineMatch line with
        | none => recordsGo ls in_named
        | some (p, c) => (pyStrip p, pyStrip c) :: recordsGo ls in_named

/-- The data records of the `named_modules` section of a report. -/
def sectionRecords (report_text : Str) : List (Str × Str) :=
  recordsGo (pySplitlines report_text) false

/-- The proper dotted prefixes of a path, shortest first: the paths
`".".join(parts[:i])` for `i = 1 .. len(parts)-1` synthesized by the inner
loop of `ensure_parents` (source lines 105–106). -/
def prefixPaths (p : Str) : List Str :=
  let parts := splitAll '.' p
  (List.range' 1 (parts.length - 1)).map (fun i => intercalateC '.' (parts.take i))

/-- One step of the inner loop of `ensure_parents` (source lines 107–108):
add a synthesized parent if it is not yet a key. -/
def addMissingParent (out : Dict) (parent : Str) : Dict :=
  if isKey out parent then out else out ++ [(parent, Node.mk parent none)]

/-- `ensure_parents` (source lines 101–109). -/
def ensure_parents (nodes : Dict) : Dict :=
  nodes.foldl (fun out pn => (prefixPaths pn.1).foldl addMissingParent out) nodes

/-- `filter_by_max_depth` (source lines 112–118). -/
def filter_by_max_depth (nodes : Dict) (max_depth : Int) : Dict :=
  let kept := nodes.filter (fun pn => decide ((path_depth pn.1 : Int) ≤ max_depth))
  let kept2 := ensure_parents kept
  kept2.filter (fun pn => decide ((path_depth pn.1 : Int) ≤ max_depth))

/-- The parent path used by `build_tree`, `path.rsplit(".", 1)[0]`
(source line 126): the path with its last dot-segment removed; a path
without a dot is returned unchanged. -/
def parentOf (p : Str) : Str :=
  if '.' ∈ p then intercalateC '.' ((splitAll '.' p).dropLast) else p

/-- The `Dict[str, List[str]]` tree, as an insertion-ordered association
list (Python `defaultdict(list)` semantics restricted to the keys that are
actually written). -/
abbrev Tree := List (Str × List Str)

/-- `tree[parent].append(path)` on the modelled tree. -/
def treeAdd (t : Tree) (k : Str) (v : Str) : Tree :=
  if t.any (fun p => p.1 = k) then
    t.map (fun p => if p.1 = k then (p.1, p.2 ++ [v]) else p)
  else t ++ [(k, [v])]

/-- `tree[k]` on the modelled tree (keys are always present when read). -/
def treeLookup (t : Tree) (k : Str) : List Str :=
  ((t.find? (fun p => p.1 = k)).map (fun p => p.2)).getD []

/-- `build_tree` (source lines 121–132). -/
def build_tree (nodes : Dict) : Tree :=
  let t := nodes.foldl
    (fun t pn =>
      if '.' ∈ pn.1 then
        if isKey nodes (parentOf pn.1) then treeAdd t (parentOf pn.1) pn.1 else t
      else t)
    ([] : Tree)
  t.map (fun p => (p.1, List.insertionSort strLe p.2.dedup))

/-- `node_label` (source lines 135–140): `"{path} {cls}"` when the class
name is truthy (present and non-empty), else just the path, sanitized. -/
def node_label (n : Node) : Str :=
  match n.cls with
  | some c => if c.isEmpty then sanitize_label n.path
              else sanitize_label (n.path ++ ' ' :: c)
  | none => sanitize_label n.path

/-- `emit_leaf_stack` (source lines 143–164), returning the extended line
list instead of mutating it. -/
def emit_leaf_stack (lines : List Str) (parent : Str) (leaf_children : List Str)
    (stack_id : Str) : List Str :=
  if leaf_children.isEmpty then lines
  else
    let lc := List.insertionSort strLe leaf_children
    lines
      ++ [(s "  subgraph ") ++ stack_id, s "    direction TB"]
      ++ (lc.zip lc.tail).map
        (fun ab => (s "    ") ++ mermaid_id_for_path ab.1
          ++ (s " --> ") ++ mermaid_id_for_path ab.2)
      ++ [s "  end",
          (s "  ") ++ mermaid_id_for_path parent ++ (s " --> ")
            ++ mermaid_id_for_path (lc.headD [])]

/-- The sort key order of the node-declaration loop (source line 180):
Python tuple order on `(path_depth(path), path)`. -/
def declKeyLe (x y : Str × Node) : Prop :=
  path_depth x.1 < path_depth y.1 ∨ (path_depth x.1 = path_depth y.1 ∧ strLe x.1 y.1)

instance : DecidableRel declKeyLe := fun x y => by
  unfold declKeyLe; infer_instance

/-- One node-declaration line, `f"  {nid}[{lbl}]"` (source lines 181–183). -/
def declLine (pn : Str × Node) : Str :=
  (s "  ") ++ mermaid_id_for_path pn.1 ++ '[' :: (node_label pn.2 ++ [']'])

/-- The loop body over a parent in `generate_mermaid` (source lines
195–209), threading the line list and the `stack_counter`. -/
def parentStep (tree : Tree) (max_depth : Int) (st : List Str × Nat)
    (parent : Str) : List Str × Nat :=
  let children := treeLookup tree parent
  let leaf_children := children.filter (fun c => decide ((path_depth c : Int) = max_depth))
  let nonleaf_children := children.filter (fun c => decide ((path_depth c : Int) < max_depth))
  let lines := st.1 ++ nonleaf_children.map
    (fun c => (s "  ") ++ mermaid_id_for_path parent ++ (s " --> ") ++ mermaid_id_for_path c)
  if leaf_children.isEmpty then (lines, st.2)
  else
    let counter := st.2 + 1
    let stack_id := (s "leafstack_") ++ mermaid_id_for_path parent ++ '_' :: natToStr counter
    (emit_leaf_stack lines parent leaf_children stack_id, counter)

/-- The full line list built by `generate_mermaid` (source lines 167–209):
header, root declaration, sorted node declarations, root edges, then the
per-parent edge loop. -/
def mermaid_lines (nodes : Dict) (max_depth : Int) (root_label : Str) : List Str :=
  let header := [s "flowchart LR",
                 (s "  Model[") ++ (sanitize_label root_label ++ [']'])]
  let decls := (List.insertionSort declKeyLe nodes).map declLine
  let top_level := List.insertionSort strLe
    ((nodes.map (fun pn => pn.1)).filter (fun p => !('.' ∈ p : Bool)))
  let rootEdges := top_level.map
    (fun t => (s "  Model --> ") ++ mermaid_id_for_path t)
  let tree := build_tree nodes
  let sortedParents := List.insertionSort strLe (tree.map (fun p => p.1))
  (sortedParents.foldl (parentStep tree max_depth)
    (header ++ decls ++ rootEdges, 0)).1

/-- `generate_mermaid` (source lines 167–211): the joined line text,
`"\n".join(lines) + "\n"`. -/
def generate_mermaid (nodes : Dict) (max_depth : Int) (root_label : Str) : Str :=
  intercalateC '\n' (mermaid_lines nodes max_depth root_label) ++ ['\n']

/-- The pure pipeline of `main` after the empty-parse check (source lines
226–234): parse, ensure parents, depth-filter, generate. -/
def pipeline (report_text : Str) (max_depth : Int) (root_label : Str) : Str :=
  generate_mermaid
    (filter_by_max_depth (ensure_parents (parse_named_modules report_text)) max_depth)
    max_depth root_label

/-- `main` (source lines 214–241) as a function of the report text and the
two relevant flags: the `raise SystemExit(...)` on an empty parse result is
modelled as `Except.error` with the source's message, and a successful run
returns the output file's content (the diagram wrapped in a fenced code
block). -/
def runMain (report_text : Str) (max_depth : Int) (root_label : Str) : Except Str Str :=
  let explicit := parse_named_modules report_text
  if explicit.isEmpty then
    Except.error (s "Could not find named_modules section or it was empty")
  else
    Except.ok ((s "```mermaid\n") ++ pipeline report_text max_depth root_label ++ (s "```\n"))

/-- The spec's fixture report (§8): a `named_modules` section with exactly
three data lines. -/
def fixtureReport : Str :=
  s "=== named_modules\nvisual.blocks.0.attn.qkv    Linear\nvisual.blocks.0.attn.proj   Linear\nlanguage.embed_tokens       Embedding\n"

/-- The keys `ensure_parents` adds to a dict (its synthesized ancestors). -/
def addedAncestorKeys (nodes : Dict) : List Str :=
  ((ensure_parents nodes).filter (fun pn => !isKey nodes pn.1)).map (fun pn => pn.1)

/-- The lines a leaf-children container contributes to the diagram, as the
spec describes them (§4.4 rule 4): a nested top-to-bottom container whose
edges link each leaf to the next in sorted order, closed by an edge from
the parent to the first sorted leaf; nothing when there are no leaves. -/
def leafContainerLines (parent : Str) (stack_id : Str) (leaf_children : List Str) : List Str :=
  if leaf_children.isEmpty then []
  else
    let lc := List.insertionSort strLe leaf_children
    [(s "  subgraph ") ++ stack_id, s "    direction TB"]
      ++ (lc.zip lc.tail).map
        (fun ab => (s "    ") ++ mermaid_id_for_path ab.1
          ++ (s " --> ") ++ mermaid_id_for_path ab.2)
      ++ [s "  end",
          (s "  ") ++ mermaid_id_for_path parent ++ (s " --> ")
            ++ mermaid_id_for_path (lc.headD [])]

/-- The block of lines the edge loop of `generate_mermaid` emits for one
parent, given the value of `stack_counter` used for its container. -/
def parentBlock (tree : Tree) (max_depth : Int) (parent : Str) (counter : Nat) : List Str :=
  let children := treeLookup tree parent
  let leaf_children := children.filter (fun c => decide ((path_depth c : Int) = max_depth))
  let nonleaf_children := children.filter (fun c => decide ((path_depth c : Int) < max_depth))
  nonleaf_children.map
    (fun c => (s "  ") ++ mermaid_id_for_path parent ++ (s " --> ") ++ mermaid_id_for_path c)
  ++ leafContainerLines parent
      ((s "leafstack_") ++ mermaid_id_for_path parent ++ '_' :: natToStr counter)
      leaf_children

/-- Does the edge loop allocate a container (bump `stack_counter`) for this
parent? -/
def usesStack (tree : Tree) (max_depth : Int) (parent : Str) : Bool :=
  !((treeLookup tree parent).filter
      (fun c => decide ((path_depth c : Int) = max_depth))).isEmpty

/-- The concatenated per-parent blocks of the edge loop, starting from a
given `stack_counter` value. -/
def parentBlocks (tree : Tree) (max_depth : Int) : List Str → Nat → List Str
  | [], _ => []
  | p :: ps, c =>
    let c2 := if usesStack tree max_depth p then c + 1 else c
    parentBlock tree max_depth p c2 ++ parentBlocks tree max_depth ps c2

/-- A concrete two-node dict whose distinct paths `a.b` and `a_b` share a
mermaid identifier. -/
def collidingNodes : Dict :=
  [(s "a.b", Node.mk (s "a.b") (some (s "Linear"))),
   (s "a_b", Node.mk (s "a_b") (some (s "Conv")))]

/-- A small concrete dict used to instantiate the layout theorem. -/
def stackFixture : Dict :=
  [(s "a", Node.mk (s "a") none),
   (s "a.b", Node.mk (s "a.b") (some (s "Linear"))),
   (s "a.c", Node.mk (s "a.c") (some (s "Conv")))]

/-! ## Lemmas on the split/join primitives -/

theorem splitAll_ne_nil (sep : Char) (cs : Str) : splitAll sep cs ≠ [] := by
  induction cs with
  | nil => simp [splitAll]
  | cons c rest ih =>
    simp only [splitAll]
    split
    · simp
    · cases h : splitAll sep rest with
      | nil => simp
      | cons h t => simp

theorem sep_not_mem_of_mem_splitAll (sep : Char) (cs : Str) :
    ∀ part ∈ splitAll sep cs, sep ∉ part := by
  induction cs with
  | nil => intro part hp; simp [splitAll] at hp; simp [hp]
  | cons c rest ih =>
    intro part hp
    simp only [splitAll] at hp
    by_cases hc : c = sep
    · rw [if_pos hc] at hp
      rcases List.mem_cons.mp hp with h | h
      · simp [h]
      · exact ih part h
    · rw [if_neg hc] at hp
      cases hsp : splitAll sep rest with
      | nil => exact absurd hsp (splitAll_ne_nil sep rest)
      | cons h t =>
        rw [hsp] at hp
        rcases List.mem_cons.mp hp with h2 | h2
        · subst h2
          intro hmem
          rcases List.mem_cons.mp hmem with h3 | h3
          · exact hc h3.symm
          · exact ih h (by rw [hsp]; exact List.mem_cons_self _ _) h3
        · exact ih part (by rw [hsp]; exact List.mem_cons_of_mem _ h2)

theorem splitAll_of_not_mem (sep : Char) (cs : Str) (h : sep ∉ cs) :
    splitAll sep cs = [cs] := by
  induction cs with
  | nil => rfl
  | cons c rest ih =>
    have hc : ¬c = sep := fun e => h (e ▸ List.mem_cons_self c rest)
    have hr : sep ∉ rest := fun e => h (List.mem_cons_of_mem c e)
    simp only [splitAll, if_neg hc, ih hr]

theorem splitAll_append_sep (sep : Char) (x r : Str) (h : sep ∉ x) :
    splitAll sep (x ++ sep :: r) = x :: splitAll sep r := by
  induction x with
  | nil => simp [splitAll]
  | cons c x2 ih =>
    have hc : ¬c = sep := fun e => h (e ▸ List.mem_cons_self c x2)
    have hx : sep ∉ x2 := fun e => h (List.mem_cons_of_mem c e)
    simp only [List.cons_append, splitAll, List.append_eq, if_neg hc, ih hx]

theorem splitAll_intercalateC (sep : Char) (l : List Str) (hne : l ≠ [])
    (hsep : ∀ x ∈ l, sep ∉ x) : splitAll sep (intercalateC sep l) = l := by
  induction l with
  | nil => exact absurd rfl hne
  | cons x xs ih =>
    cases xs with
    | nil =>
      simp only [intercalateC]
      exact splitAll_of_not_mem sep x (hsep x (List.mem_cons_self _ _))
    | cons y ys =>
      have hx : sep ∉ x := hsep x (List.mem_cons_self _ _)
      show splitAll sep (x ++ sep :: intercalateC sep (y :: ys)) = _
      rw [splitAll_append_sep sep x _ hx,
        ih (by simp) (fun z hz => hsep z (List.mem_cons_of_mem x hz))]

theorem path_depth_intercalateC_take (p : Str) (i : Nat) (h1 : 1 ≤ i)
    (h2 : i ≤ (splitAll '.' p).length) :
    path_depth (intercalateC '.' ((splitAll '.' p).take i)) = i := by
  have hne : (splitAll '.' p).take i ≠ [] := by
    intro h
    have := congrArg List.length h
    simp only [List.length_take, List.length_nil] at this
    omega
  have hsep : ∀ x ∈ (splitAll '.' p).take i, '.' ∉ x := fun x hx =>
    sep_not_mem_of_mem_splitAll '.' p x (List.mem_of_mem_take hx)
  unfold path_depth
  rw [splitAll_intercalateC '.' _ hne hsep]
  simp only [List.length_take]
  omega

theorem mem_prefixPaths_iff (q p : Str) :
    q ∈ prefixPaths p ↔
      ∃ i, 1 ≤ i ∧ i < path_depth p ∧
        q = intercalateC '.' ((splitAll '.' p).take i) := by
  unfold prefixPaths path_depth
  have hlen : 1 ≤ (splitAll '.' p).length :=
    List.length_pos.mpr (splitAll_ne_nil '.' p)
  simp only [List.mem_map, List.mem_range']
  constructor
  · rintro ⟨i, ⟨j, hj, rfl⟩, rfl⟩
    exact ⟨1 + 1 * j, by omega, by omega, rfl⟩
  · rintro ⟨i, h1, h2, rfl⟩
    exact ⟨i, ⟨i - 1, by omega, by omega⟩, rfl⟩

theorem path_depth_of_mem_prefixPaths {q p : Str} (h : q ∈ prefixPaths p) :
    path_depth q < path_depth p := by
  rcases (mem_prefixPaths_iff q p).mp h with ⟨i, h1, h2, rfl⟩
  rw [path_depth_intercalateC_take p i h1 (le_of_lt h2)]
  exact h2

theorem prefixPaths_trans {r q p : Str} (hq : q ∈ prefixPaths p)
    (hr : r ∈ prefixPaths q) : r ∈ prefixPaths p := by
  rcases (mem_prefixPaths_iff q p).mp hq with ⟨i, hi1, hi2, rfl⟩
  rcases (mem_prefixPaths_iff r _).mp hr with ⟨j, hj1, hj2, rfl⟩
  rw [path_depth_intercalateC_take p i hi1 (le_of_lt hi2)] at hj2
  have hparts : splitAll '.' (intercalateC '.' ((splitAll '.' p).take i)) =
      (splitAll '.' p).take i := by
    apply splitAll_intercalateC
    · intro h
      have := congrArg List.length h
      simp only [List.length_take, List.length_nil] at this
      unfold path_depth at hi2
      omega
    · exact fun x hx => sep_not_mem_of_mem_splitAll '.' p x (List.mem_of_mem_take hx)
  rw [hparts, List.take_take, min_eq_left (le_of_lt hj2)]
  exact (mem_prefixPaths_iff _ p).mpr ⟨j, hj1, by omega, rfl⟩

theorem mem_iff_two_le_splitAll (sep : Char) (p : Str) :
    sep ∈ p ↔ 2 ≤ (splitAll sep p).length := by
  induction p with
  | nil => simp [splitAll]
  | cons c rest ih =>
    by_cases hc : c = sep
    · subst hc
      have h1 : 1 ≤ (splitAll c rest).length :=
        List.length_pos.mpr (splitAll_ne_nil c rest)
      have h2 : splitAll c (c :: rest) = [] :: splitAll c rest := by
        simp [splitAll]
      rw [h2]
      simp only [List.length_cons, List.mem_cons]
      constructor
      · intro _
        omega
      · intro _
        left
        trivial
    · simp only [splitAll, if_neg hc]
      cases hsp : splitAll sep rest with
      | nil => exact absurd hsp (splitAll_ne_nil sep rest)
      | cons h t =>
        rw [hsp] at ih
        simp only [List.mem_cons, List.length_cons] at ih ⊢
        constructor
        · rintro (h2 | h2)
          · exact absurd h2.symm hc
          · exact ih.mp h2
        · intro h2
          exact Or.inr (ih.mpr h2)

theorem dot_mem_iff_depth (p : Str) : '.' ∈ p ↔ 1 < path_depth p := by
  rw [mem_iff_two_le_splitAll]
  unfold path_depth
  omega

theorem parentOf_mem_prefixPaths {p : Str} (h : 1 < path_depth p) :
    parentOf p ∈ prefixPaths p := by
  unfold parentOf
  rw [if_pos ((dot_mem_iff_depth p).mpr h)]
  rw [List.dropLast_eq_take]
  exact (mem_prefixPaths_iff _ p).mpr
    ⟨(splitAll '.' p).length - 1, by unfold path_depth at h; omega,
      by unfold path_depth at h ⊢; omega, rfl⟩

/-! ## Lemmas on the dict model and `ensure_parents` -/

theorem isKey_of_mem {d : Dict} {pn : Str × Node} (h : pn ∈ d) :
    isKey d pn.1 = true := by
  unfold isKey
  rw [List.any_eq_true]
  exact ⟨pn, h, by simp⟩

theorem isKey_iff_exists_mem (d : Dict) (q : Str) :
    isKey d q = true ↔ ∃ pn ∈ d, pn.1 = q := by
  unfold isKey
  rw [List.any_eq_true]
  simp

theorem isKey_addMissingParent (out : Dict) (r q : Str) :
    isKey (addMissingParent out r) q = true ↔ isKey out q = true ∨ r = q := by
  unfold addMissingParent
  by_cases h : isKey out r
  · rw [if_pos h]
    constructor
    · exact Or.inl
    · rintro (h2 | rfl)
      · exact h2
      · exact h
  · rw [if_neg h]
    unfold isKey at *
    simp [List.any_append]

theorem isKey_foldl_addMissingParent (ps : List Str) (out : Dict) (q : Str) :
    isKey (ps.foldl addMissingParent out) q = true ↔
      isKey out q = true ∨ q ∈ ps := by
  induction ps generalizing out with
  | nil => simp
  | cons r ps ih =>
    simp only [List.foldl_cons, ih, isKey_addMissingParent, List.mem_cons]
    constructor
    · rintro ((h | rfl) | h)
      · exact Or.inl h
      · exact Or.inr (Or.inl rfl)
      · exact Or.inr (Or.inr h)
    · rintro (h | rfl | h)
      · exact Or.inl (Or.inl h)
      · exact Or.inl (Or.inr rfl)
      · exact Or.inr h

theorem isKey_foldl_parents (l : Dict) (acc : Dict) (q : Str) :
    isKey (l.foldl (fun out pn => (prefixPaths pn.1).foldl addMissingParent out) acc) q
        = true ↔
      isKey acc q = true ∨ ∃ pn ∈ l, q ∈ prefixPaths pn.1 := by
  induction l generalizing acc with
  | nil => simp
  | cons pn l ih =>
    simp only [List.foldl_cons, ih, isKey_foldl_addMissingParent, List.mem_cons]
    constructor
    · rintro ((h | h) | ⟨pn2, h2, h3⟩)
      · exact Or.inl h
      · exact Or.inr ⟨pn, Or.inl rfl, h⟩
      · exact Or.inr ⟨pn2, Or.inr h2, h3⟩
    · rintro (h | ⟨pn2, h2 | h2, h3⟩)
      · exact Or.inl (Or.inl h)
      · exact Or.inl (Or.inr (h2 ▸ h3))
      · exact Or.inr ⟨pn2, h2, h3⟩

theorem isKey_ensure_parents (m : Dict) (q : Str) :
    isKey (ensure_parents m) q = true ↔
      isKey m q = true ∨ ∃ pn ∈ m, q ∈ prefixPaths pn.1 := by
  unfold ensure_parents
  exact isKey_foldl_parents m m q

theorem foldl_addMissingParent_of_present (ps : List Str) (acc : Dict)
    (h : ∀ r ∈ ps, isKey acc r = true) : ps.foldl addMissingParent acc = acc := by
  induction ps with
  | nil => rfl
  | cons r ps ih =>
    have h1 : addMissingParent acc r = acc := by
      unfold addMissingParent
      rw [if_pos (h r (List.mem_cons_self _ _))]
    simp only [List.foldl_cons, h1]
    exact ih (fun r2 h2 => h r2 (List.mem_cons_of_mem _ h2))

theorem ensure_parents_of_closed (m : Dict)
    (h : ∀ pn ∈ m, ∀ r ∈ prefixPaths pn.1, isKey m r = true) :
    ensure_parents m = m := by
  unfold ensure_parents
  have general : ∀ (l : Dict), (∀ pn ∈ l, ∀ r ∈ prefixPaths pn.1, isKey m r = true) →
      l.foldl (fun out pn => (prefixPaths pn.1).foldl addMissingParent out) m = m := by
    intro l
    induction l with
    | nil => intro _; rfl
    | cons pn l ih =>
      intro hl
      have h1 : (prefixPaths pn.1).foldl addMissingParent m = m :=
        foldl_addMissingParent_of_present _ _ (hl pn (List.mem_cons_self _ _))
      simp only [List.foldl_cons, h1]
      exact ih (fun pn2 h2 => hl pn2 (List.mem_cons_of_mem _ h2))
  exact general m h

theorem isKey_filter_depth (m : Dict) (d : Int) (q : Str) :
    isKey (m.filter (fun pn => decide ((path_depth pn.1 : Int) ≤ d))) q = true ↔
      isKey m q = true ∧ (path_depth q : Int) ≤ d := by
  simp only [isKey_iff_exists_mem, List.mem_filter]
  constructor
  · rintro ⟨pn, ⟨h1, h2⟩, rfl⟩
    exact ⟨⟨pn, h1, rfl⟩, by simpa using h2⟩
  · rintro ⟨⟨pn, h1, rfl⟩, h2⟩
    exact ⟨pn, ⟨h1, by simpa using h2⟩, rfl⟩

theorem isKey_filter_by_max_depth (nodes : Dict) (d : Int) (q : Str) :
    isKey (filter_by_max_depth nodes d) q = true ↔
      (isKey nodes q = true ∧ (path_depth q : Int) ≤ d) ∨
      (∃ p, isKey nodes p = true ∧ (path_depth p : Int) ≤ d ∧ q ∈ prefixPaths p) := by
  unfold filter_by_max_depth
  rw [isKey_filter_depth, isKey_ensure_parents, isKey_filter_depth]
  constructor
  · rintro ⟨h1 | ⟨pn, h2, h3⟩, h4⟩
    · exact Or.inl h1
    · have h5 := List.mem_filter.mp h2
      exact Or.inr ⟨pn.1, isKey_of_mem h5.1, by simpa using h5.2, h3⟩
  · rintro (⟨h1, h2⟩ | ⟨p, h1, h2, h3⟩)
    · exact ⟨Or.inl ⟨h1, h2⟩, h2⟩
    · have hd : (path_depth q : Int) ≤ d := by
        have := path_depth_of_mem_prefixPaths h3
        omega
      refine ⟨Or.inr ?_, hd⟩
      rcases (isKey_iff_exists_mem nodes p).mp h1 with ⟨pn, hmem, hkey⟩
      exact ⟨pn, List.mem_filter.mpr ⟨hmem, by simp [hkey, h2]⟩, hkey ▸ h3⟩

theorem filter_output_prefix_closed (nodes : Dict) (d : Int) (q r : Str)
    (hq : isKey (filter_by_max_depth nodes d) q = true) (hr : r ∈ prefixPaths q) :
    isKey (filter_by_max_depth nodes d) r = true := by
  rcases (isKey_filter_by_max_depth nodes d q).mp hq with ⟨h1, h2⟩ | ⟨p, h1, h2, h3⟩
  · exact (isKey_filter_by_max_depth nodes d r).mpr (Or.inr ⟨q, h1, h2, hr⟩)
  · exact (isKey_filter_by_max_depth nodes d r).mpr
      (Or.inr ⟨p, h1, h2, prefixPaths_trans h3 hr⟩)

/-- C2: for every node mapping and every `max_depth`, a path is a key of
`filter_by_max_depth nodes max_depth` exactly when it is a key of `nodes`
of depth at most `max_depth`, or a synthesized ancestor (proper dotted
prefix) of such a key; and every key of the output has depth at most
`max_depth`. -/
theorem depth_filter_exact_characterization (nodes : Dict) (d : Int) (q : Str) :
    (isKey (filter_by_max_depth nodes d) q = true ↔
      (isKey nodes q = true ∧ (path_depth q : Int) ≤ d) ∨
      (∃ p, isKey nodes p = true ∧ (path_depth p : Int) ≤ d ∧ q ∈ prefixPaths p)) ∧
    (isKey (filter_by_max_depth nodes d) q = true → (path_depth q : Int) ≤ d) := by
  refine ⟨isKey_filter_by_max_depth nodes d q, fun h => ?_⟩
  unfold filter_by_max_depth at h
  exact ((isKey_filter_depth _ d q).mp h).2

/-- Witness for C2 at a concrete dict: the depth-1 filter of
`stackFixture` keeps exactly the key `a`. -/
theorem depth_filter_exact_characterization_witness :
    (isKey (filter_by_max_depth stackFixture 1) (s "a") = true ↔
      (isKey stackFixture (s "a") = true ∧ (path_depth (s "a") : Int) ≤ 1) ∨
      (∃ p, isKey stackFixture p = true ∧ (path_depth p : Int) ≤ 1 ∧
        (s "a") ∈ prefixPaths p)) ∧
    (isKey (filter_by_max_depth stackFixture 1) (s "a") = true →
      (path_depth (s "a") : Int) ≤ 1) :=
  depth_filter_exact_characterization stackFixture 1 (s "a")

/-- C3: the node set produced by `ensure_parents`, and the node set
produced by `filter_by_max_depth`, are closed under the parent operation:
any key of depth greater than 1 has the path obtained by removing its last
dot-segment as a key too. -/
theorem node_sets_closed_under_parent (nodes : Dict) (d : Int) (q : Str) :
    (isKey (ensure_parents nodes) q = true → 1 < path_depth q →
      isKey (ensure_parents nodes) (parentOf q) = true) ∧
    (isKey (filter_by_max_depth nodes d) q = true → 1 < path_depth q →
      isKey (filter_by_max_depth nodes d) (parentOf q) = true) := by
  constructor
  · intro hkey hdepth
    rcases (isKey_ensure_parents nodes q).mp hkey with h | ⟨pn, hm, hq⟩
    · rcases (isKey_iff_exists_mem nodes q).mp h with ⟨pn, hm, hk⟩
      exact (isKey_ensure_parents nodes _).mpr
        (Or.inr ⟨pn, hm, by rw [hk]; exact parentOf_mem_prefixPaths hdepth⟩)
    · exact (isKey_ensure_parents nodes _).mpr
        (Or.inr ⟨pn, hm, prefixPaths_trans hq (parentOf_mem_prefixPaths hdepth)⟩)
  · intro hkey hdepth
    exact filter_output_prefix_closed nodes d q _ hkey (parentOf_mem_prefixPaths hdepth)

/-- Witness for C3 at a concrete dict: both closure implications
instantiated at the depth-2 key `a.b` of `stackFixture`. -/
theorem node_sets_closed_under_parent_witness :
    (isKey (ensure_parents stackFixture) (s "a.b") = true → 1 < path_depth (s "a.b") →
      isKey (ensure_parents stackFixture) (parentOf (s "a.b")) = true) ∧
    (isKey (filter_by_max_depth stackFixture 2) (s "a.b") = true →
      1 < path_depth (s "a.b") →
      isKey (filter_by_max_depth stackFixture 2) (parentOf (s "a.b")) = true) :=
  node_sets_closed_under_parent stackFixture 2 (s "a.b")

/-- C8: `filter_by_max_depth` is idempotent — filtering an
already-filtered dict at the same maximum depth returns it unchanged. -/
theorem depth_filter_idempotent (nodes : Dict) (d : Int) :
    filter_by_max_depth (filter_by_max_depth nodes d) d =
      filter_by_max_depth nodes d := by
  have hdep : ∀ pn ∈ filter_by_max_depth nodes d,
      decide ((path_depth pn.1 : Int) ≤ d) = true := by
    intro pn h
    unfold filter_by_max_depth at h
    exact (List.mem_filter.mp h).2
  have hfilter : (filter_by_max_depth nodes d).filter
      (fun pn => decide ((path_depth pn.1 : Int) ≤ d)) = filter_by_max_depth nodes d :=
    List.filter_eq_self.mpr hdep
  have hclosed : ∀ pn ∈ filter_by_max_depth nodes d, ∀ r ∈ prefixPaths pn.1,
      isKey (filter_by_max_depth nodes d) r = true := by
    intro pn hm r hr
    exact filter_output_prefix_closed nodes d pn.1 r (isKey_of_mem hm) hr
  have hEP : ensure_parents (filter_by_max_depth nodes d) = filter_by_max_depth nodes d :=
    ensure_parents_of_closed _ hclosed
  show (ensure_parents ((filter_by_max_depth nodes d).filter _)).filter _ = _
  rw [hfilter, hEP, hfilter]

/-! ## Lemmas on the parser: duplicate paths -/

theorem lookupD_dictInsert (d : Dict) (k : Str) (v : Node) (q : Str) :
    lookupD (dictInsert d k v) q = if q = k then some v else lookupD d q := by
  induction d with
  | nil =>
    by_cases h : q = k
    · subst h
      simp [dictInsert, lookupD, List.find?]
    · have hk : ¬k = q := fun e => h e.symm
      simp only [dictInsert, lookupD, List.find?, decide_eq_false hk]
      rw [if_neg h]
  | cons e rest ih =>
    by_cases h : e.1 = k
    · unfold dictInsert
      rw [if_pos h]
      by_cases h2 : q = k
      · subst h2
        simp [lookupD, List.find?]
      · have hk : ¬k = q := fun e2 => h2 e2.symm
        have h3 : ¬e.1 = q := fun e2 => h2 (e2.symm.trans h)
        simp only [lookupD, List.find?, decide_eq_false hk, decide_eq_false h3]
        rw [if_neg h2]
    · unfold dictInsert
      rw [if_neg h]
      by_cases h3 : e.1 = q
      · have h4 : ¬q = k := fun e2 => h (h3.trans e2)
        simp only [lookupD, List.find?, decide_eq_true h3]
        rw [if_neg h4]
      · simp only [lookupD, List.find?]
        rw [decide_eq_false h3]
        exact ih

theorem parseGo_eq_records (ls : List Str) (b : Bool) (d : Dict) :
    parseGo ls b d = (recordsGo ls b).foldl
      (fun acc r => dictInsert acc r.1 (Node.mk r.1 (some r.2))) d := by
  induction ls generalizing b d with
  | nil => rfl
  | cons raw ls ih =>
    cases b with
    | false =>
      simp only [parseGo, recordsGo, Bool.not_false, if_pos]
      by_cases h2 : namedModulesHeaderMatch (pyStrip (rstripNL raw)) = true
      · simp [h2, ih]
      · simp [h2, ih]
    | true =>
      simp only [parseGo, recordsGo, Bool.not_true, Bool.false_eq_true, if_false]
      by_cases h3 : (sectionHeaderMatch (pyStrip (rstripNL raw)) &&
          !namedModulesHeaderMatch (pyStrip (rstripNL raw))) = true
      · simp [h3]
      · by_cases h4 : (pyStrip (rstripNL raw)).isEmpty = true
        · simp [h3, h4, ih]
        · cases hm : lineMatch (rstripNL raw) with
          | none => simp [h3, h4, hm, ih]
          | some pc => simp [h3, h4, hm, ih]

theorem lookupD_foldl_dictInsert (recs : List (Str × Str)) (d : Dict) (q : Str) :
    lookupD (recs.foldl (fun acc r => dictInsert acc r.1 (Node.mk r.1 (some r.2))) d) q =
      match (recs.filter (fun r => decide (r.1 = q))).getLast? with
      | some r => some (Node.mk r.1 (some r.2))
      | none => lookupD d q := by
  induction recs generalizing d with
  | nil => simp
  | cons r rs ih =>
    simp only [List.foldl_cons, ih, List.filter_cons]
    by_cases h : r.1 = q
    · rw [decide_eq_true h]
      simp only [if_pos trivial]
      cases hrs : (rs.filter (fun r => decide (r.1 = q))).getLast? with
      | some r2 =>
        have hne : rs.filter (fun r => decide (r.1 = q)) ≠ [] := by
          intro e
          rw [e] at hrs
          exact Option.noConfusion hrs
        cases hfl : rs.filter (fun r => decide (r.1 = q)) with
        | nil => exact absurd hfl hne
        | cons x xs =>
          rw [hfl] at hrs
          rw [List.getLast?_cons_cons, hrs]
      | none =>
        have he : rs.filter (fun r => decide (r.1 = q)) = [] := by
          cases hfl : rs.filter (fun r => decide (r.1 = q)) with
          | nil => rfl
          | cons x xs =>
            rw [hfl] at hrs
            cases xs with
            | nil => simp at hrs
            | cons y ys =>
              rw [List.getLast?_cons_cons] at hrs
              have : (y :: ys).getLast? ≠ none := by
                cases ys with
                | nil => simp
                | cons z zs => rw [List.getLast?_cons_cons]; simp [List.getLast?_isSome]
              exact absurd hrs this
        rw [he, List.getLast?_singleton, lookupD_dictInsert, if_pos h.symm]
    · rw [decide_eq_false h]
      simp only [Bool.false_eq_true, if_false]
      have h2 : ¬q = r.1 := fun e => h e.symm
      cases hrs : (rs.filter (fun r => decide (r.1 = q))).getLast? with
      | some r2 => rfl
      | none => rw [lookupD_dictInsert, if_neg h2]

/-- C9: looking up a path in the parser's result yields the `(path, class)`
record of the last data line of the `named_modules` section carrying that
path token — later duplicate lines overwrite earlier ones — and `none` when
no data line carries it. -/
theorem parse_last_duplicate_wins (t : Str) (p : Str) :
    lookupD (parse_named_modules t) p =
      ((sectionRecords t).filter (fun r => decide (r.1 = p))).getLast?.map
        (fun r => Node.mk r.1 (some r.2)) := by
  unfold parse_named_modules sectionRecords
  rw [parseGo_eq_records, lookupD_foldl_dictInsert]
  cases ((recordsGo (pySplitlines t) false).filter (fun r => decide (r.1 = p))).getLast? with
  | some r => rfl
  | none => rfl

/-- Witness for C9 on a concrete report with a duplicated path: the second
`Conv` record overwrites the first `Linear` one. -/
theorem parse_last_duplicate_wins_witness :
    lookupD (parse_named_modules (s "=== named_modules\na.b  Linear\na.b  Conv\n")) (s "a.b") =
      ((sectionRecords (s "=== named_modules\na.b  Linear\na.b  Conv\n")).filter
        (fun r => decide (r.1 = s "a.b"))).getLast?.map
        (fun r => Node.mk r.1 (some r.2)) :=
  parse_last_duplicate_wins (s "=== named_modules\na.b  Linear\na.b  Conv\n") (s "a.b")

/-- C4: the modelled `main` fails (the `raise SystemExit` of source lines
227–228) exactly when the parser returns zero records; a non-empty parse
result never produces the error, and an empty one never succeeds. -/
theorem fatal_iff_empty_parse (t : Str) (d : Int) (r : Str) :
    (∃ msg, runMain t d r = Except.error msg) ↔ parse_named_modules t = [] := by
  unfold runMain
  cases h : parse_named_modules t with
  | nil => simp [h, List.isEmpty]
  | cons pn rest => simp [h, List.isEmpty]

/-- Witness for C4: a report without a `named_modules` section parses to
zero records, so the run fails. -/
theorem fatal_iff_empty_parse_witness :
    (∃ msg, runMain (s "no sections here") 3 (s "Model") = Except.error msg) ↔
      parse_named_modules (s "no sections here") = [] :=
  fatal_iff_empty_parse (s "no sections here") 3 (s "Model")

/-- C6: the pipeline is deterministic — two runs on equal report texts,
equal maximum depths and equal root labels produce byte-identical diagram
text (the pipeline is a pure function of its inputs). -/
theorem pipeline_deterministic (t t2 : Str) (d d2 : Int) (r r2 : Str)
    (ht : t = t2) (hd : d = d2) (hr : r = r2) :
    pipeline t d r = pipeline t2 d2 r2 := by
  subst ht
  subst hd
  subst hr
  rfl

/-- Witness for C6: two runs on the fixture report coincide. -/
theorem pipeline_deterministic_witness :
    pipeline fixtureReport 3 (s "Qwen3VLModel") =
      pipeline fixtureReport 3 (s "Qwen3VLModel") :=
  pipeline_deterministic fixtureReport fixtureReport 3 3
    (s "Qwen3VLModel") (s "Qwen3VLModel") rfl rfl rfl

/-- C7: every emitted node identifier consists of alphanumerics and
underscores only and never starts with a digit; the identifier is the path
with every other character replaced by an underscore, prefixed by the fixed
literal `n_` exactly when that substitution would start with a digit. -/
theorem mermaid_id_charset (path : Str) :
    ((mermaid_id_for_path path).all (fun c => c.isAlphanum || c = '_')) = true ∧
    (((mermaid_id_for_path path).take 1).all (fun c => !c.isDigit)) = true ∧
    (mermaid_id_for_path path = path.map substChar ∨
      mermaid_id_for_path path = 'n' :: '_' :: path.map substChar) := by
  have hsub : ∀ ch, ((substChar ch).isAlphanum || (substChar ch) = '_') = true := by
    intro ch
    unfold substChar
    by_cases h : (ch.isAlphanum || ch = '_') = true
    · rw [if_pos h]
      exact h
    · rw [if_neg h]
      simp
  have hall : (path.map substChar).all (fun c => c.isAlphanum || c = '_') = true := by
    rw [List.all_eq_true]
    intro c hc
    rcases List.mem_map.mp hc with ⟨ch, _, rfl⟩
    exact hsub ch
  cases hm : path.map substChar with
  | nil =>
    have hEq : mermaid_id_for_path path = [] := by
      unfold mermaid_id_for_path
      rw [hm]
    rw [hEq]
    exact ⟨rfl, rfl, Or.inl rfl⟩
  | cons c rest =>
    have hEq : mermaid_id_for_path path =
        if c.isDigit then 'n' :: '_' :: c :: rest else c :: rest := by
      unfold mermaid_id_for_path
      rw [hm]
    rw [hEq]
    by_cases hd : c.isDigit = true
    · rw [if_pos hd]
      refine ⟨?_, by rfl, Or.inr rfl⟩
      rw [List.all_eq_true]
      intro x hx
      rcases List.mem_cons.mp hx with rfl | hx
      · decide
      · rcases List.mem_cons.mp hx with rfl | hx
        · decide
        · exact (List.all_eq_true.mp (hm ▸ hall)) x hx
    · rw [if_neg hd]
      refine ⟨hm ▸ hall, ?_, Or.inl rfl⟩
      have hf : c.isDigit = false := Bool.eq_false_iff.mpr hd
      simp [hf]

/-- C1 counterexample: on the spec's fixture report the Tree Builder adds
five synthesized ancestors, not four — `visual.blocks` is added (the
deepest explicit paths have five segments) and is not among the four paths
the claim lists. -/
theorem fixture_four_ancestors_refuted :
    (addedAncestorKeys (parse_named_modules fixtureReport)).length = 5 ∧
    (s "visual.blocks") ∈ addedAncestorKeys (parse_named_modules fixtureReport) ∧
    (s "visual.blocks") ∉
      [s "visual", s "visual.blocks.0.attn", s "visual.blocks.0", s "language"] := by
  refine ⟨rfl, ?_, by decide⟩
  decide

/-- C1 (amended): on the spec's fixture report with maximum depth 3 the
parser extracts exactly the three explicit nodes; `ensure_parents` adds
exactly the five synthesized ancestors `visual`, `visual.blocks`,
`visual.blocks.0`, `visual.blocks.0.attn` and `language`; and
`visual.blocks.0.attn` (depth 4) is absent from the depth-filtered node
set. -/
theorem fixture_pipeline_exact :
    (parse_named_modules fixtureReport).map (fun pn => pn.1) =
      [s "visual.blocks.0.attn.qkv", s "visual.blocks.0.attn.proj",
       s "language.embed_tokens"] ∧
    addedAncestorKeys (parse_named_modules fixtureReport) =
      [s "visual", s "visual.blocks", s "visual.blocks.0",
       s "visual.blocks.0.attn", s "language"] ∧
    isKey (filter_by_max_depth (ensure_parents (parse_named_modules fixtureReport)) 3)
      (s "visual.blocks.0.attn") = false :=
  ⟨rfl, rfl, rfl⟩

/-! ## Lemmas on the string order and the edge-emission loop -/

theorem strLeB_total (a b : Str) : (strLeB a b || strLeB b a) = true := by
  induction a generalizing b with
  | nil => simp [strLeB]
  | cons x xs ih =>
    cases b with
    | nil => simp [strLeB]
    | cons y ys =>
      simp only [strLeB]
      by_cases h1 : x.toNat < y.toNat
      · simp [h1]
      · by_cases h2 : y.toNat < x.toNat
        · simp [h1, h2]
        · simp only [if_neg h1, if_neg h2]
          exact ih ys

theorem strLeB_trans (a b c : Str) (h1 : strLeB a b = true) (h2 : strLeB b c = true) :
    strLeB a c = true := by
  induction a generalizing b c with
  | nil => simp [strLeB]
  | cons x xs ih =>
    cases b with
    | nil => simp [strLeB] at h1
    | cons y ys =>
      cases c with
      | nil => simp [strLeB] at h2
      | cons z zs =>
        simp only [strLeB] at h1 h2 ⊢
        by_cases hxy : x.toNat < y.toNat
        · rw [if_pos hxy] at h1
          by_cases hyz : y.toNat < z.toNat
          · rw [if_pos (by omega)]
          · by_cases hzy : z.toNat < y.toNat
            · rw [if_neg hyz, if_pos hzy] at h2
              simp at h2
            · rw [if_pos (by omega)]
        · by_cases hyx : y.toNat < x.toNat
          · rw [if_neg hxy, if_pos hyx] at h1
            simp at h1
          · rw [if_neg hxy, if_neg hyx] at h1
            by_cases hyz : y.toNat < z.toNat
            · rw [if_pos hyz] at h2
              rw [if_pos (by omega)]
            · by_cases hzy : z.toNat < y.toNat
              · rw [if_neg hyz, if_pos hzy] at h2
                simp at h2
              · rw [if_neg (by omega : ¬x.toNat < z.toNat),
                  if_neg (by omega : ¬z.toNat < x.toNat)]
                rw [if_neg hyz, if_neg hzy] at h2
                exact ih ys zs h1 h2

theorem strLe_isTotal : IsTotal Str strLe := by
  constructor
  intro a b
  by_cases h2 : strLeB a b = true
  · exact Or.inl h2
  · right
    have h := strLeB_total a b
    rwa [Bool.eq_false_iff.mpr h2, Bool.false_or] at h

theorem strLe_isTrans : IsTrans Str strLe := by
  constructor
  intro a b c
  exact strLeB_trans a b c

theorem sorted_insertionSort_strLe (l : List Str) :
    List.Sorted strLe (List.insertionSort strLe l) :=
  @List.sorted_insertionSort Str strLe _ strLe_isTotal strLe_isTrans l

theorem treeAdd_keys (t : Tree) (k : Str) (v : Str) :
    (treeAdd t k v).map (fun p => p.1) =
      if t.any (fun p => p.1 = k) then t.map (fun p => p.1)
      else t.map (fun p => p.1) ++ [k] := by
  unfold treeAdd
  by_cases h : t.any (fun p => p.1 = k) = true
  · rw [if_pos h, if_pos h, List.map_map]
    apply List.map_congr_left
    intro p _
    simp only [Function.comp]
    split
    · rename_i h2
      simp [h2]
    · rfl
  · rw [if_neg h, if_neg h, List.map_append]
    rfl

theorem treeAdd_keys_nodup (t : Tree) (k v : Str)
    (h : (t.map (fun p => p.1)).Nodup) :
    ((treeAdd t k v).map (fun p => p.1)).Nodup := by
  rw [treeAdd_keys]
  by_cases h2 : t.any (fun p => p.1 = k) = true
  · rw [if_pos h2]
    exact h
  · rw [if_neg h2]
    have h3 : k ∉ t.map (fun p => p.1) := by
      intro hmem
      rcases List.mem_map.mp hmem with ⟨p, hp2, hpe⟩
      exact h2 (List.any_eq_true.mpr ⟨p, hp2, by simp [hpe]⟩)
    simp [List.nodup_append, h, h3]

theorem buildFold_keys_nodup (step : Tree → (Str × Node) → Tree)
    (hstep : ∀ t pn, step t pn = t ∨ ∃ k v, step t pn = treeAdd t k v) :
    ∀ (l : Dict) (acc : Tree), (acc.map (fun p => p.1)).Nodup →
      ((l.foldl step acc).map (fun p => p.1)).Nodup := by
  intro l
  induction l with
  | nil => intro acc h; exact h
  | cons pn l ih =>
    intro acc h
    simp only [List.foldl_cons]
    apply ih
    rcases hstep acc pn with he | ⟨k, v, he⟩
    · rw [he]
      exact h
    · rw [he]
      exact treeAdd_keys_nodup acc k v h

theorem build_tree_keys_nodup (nodes : Dict) :
    ((build_tree nodes).map (fun p => p.1)).Nodup := by
  unfold build_tree
  rw [List.map_map]
  have heq : ((fun p : Str × List Str => p.1) ∘
      (fun p : Str × List Str => (p.1, List.insertionSort strLe p.2.dedup))) =
      (fun p : Str × List Str => p.1) := by
    funext p
    rfl
  rw [heq]
  apply buildFold_keys_nodup _ _ nodes [] (by simp)
  intro t pn
  by_cases h1 : '.' ∈ pn.1
  · by_cases h2 : isKey nodes (parentOf pn.1) = true
    · right
      exact ⟨parentOf pn.1, pn.1, by rw [if_pos h1, if_pos h2]⟩
    · left
      rw [if_pos h1, if_neg h2]
  · left
    rw [if_neg h1]

theorem treeLookup_of_mem (t : Tree) (k : Str) (children : List Str)
    (hnd : (t.map (fun p => p.1)).Nodup) (hmem : (k, children) ∈ t) :
    treeLookup t k = children := by
  induction t with
  | nil => simp at hmem
  | cons e rest ih =>
    rcases List.mem_cons.mp hmem with rfl | hmem2
    · unfold treeLookup
      simp [List.find?]
    · have hk : ¬e.1 = k := by
        intro h
        have : k ∈ rest.map (fun p => p.1) :=
          List.mem_map.mpr ⟨(k, children), hmem2, rfl⟩
        rw [List.map_cons, List.nodup_cons] at hnd
        exact hnd.1 (h ▸ this)
      unfold treeLookup
      simp only [List.find?, decide_eq_false hk]
      have := ih (by rw [List.map_cons, List.nodup_cons] at hnd; exact hnd.2) hmem2
      unfold treeLookup at this
      exact this

theorem emit_leaf_stack_eq (lines : List Str) (parent : Str)
    (leaf_children : List Str) (stack_id : Str) :
    emit_leaf_stack lines parent leaf_children stack_id =
      lines ++ leafContainerLines parent stack_id leaf_children := by
  unfold emit_leaf_stack leafContainerLines
  by_cases h : leaf_children.isEmpty = true
  · simp [h]
  · simp [h]

theorem parentStep_eq (tree : Tree) (d : Int) (st : List Str × Nat) (p : Str) :
    parentStep tree d st p =
      (st.1 ++ parentBlock tree d p (if usesStack tree d p then st.2 + 1 else st.2),
       if usesStack tree d p then st.2 + 1 else st.2) := by
  unfold parentStep parentBlock usesStack
  by_cases h : ((treeLookup tree p).filter
      (fun c => decide ((path_depth c : Int) = d))).isEmpty = true
  · have h2 : ∀ sid, leafContainerLines p sid
        ((treeLookup tree p).filter (fun c => decide ((path_depth c : Int) = d))) = [] := by
      intro sid
      unfold leafContainerLines
      rw [if_pos h]
    simp [h, h2, List.append_assoc]
  · have hpos : (!((treeLookup tree p).filter
        (fun c => decide ((path_depth c : Int) = d))).isEmpty) = true := by
      cases he : ((treeLookup tree p).filter
          (fun c => decide ((path_depth c : Int) = d))).isEmpty
      · rfl
      · exact absurd he h
    rw [if_neg h]
    simp only [hpos, emit_leaf_stack_eq]
    simp [List.append_assoc]

theorem foldl_parentStep_eq (tree : Tree) (d : Int) :
    ∀ (ps : List Str) (L : List Str) (c : Nat),
      ps.foldl (parentStep tree d) (L, c) =
        (L ++ parentBlocks tree d ps c,
         c + (ps.filter (usesStack tree d)).length) := by
  intro ps
  induction ps with
  | nil => intro L c; simp [parentBlocks]
  | cons p ps ih =>
    intro L c
    rw [List.foldl_cons, parentStep_eq, ih]
    have hblocks : parentBlocks tree d (p :: ps) c =
        parentBlock tree d p (if usesStack tree d p then c + 1 else c) ++
          parentBlocks tree d ps (if usesStack tree d p then c + 1 else c) := rfl
    rw [hblocks, ← List.append_assoc]
    have hcount : (if usesStack tree d p then c + 1 else c) +
        (ps.filter (usesStack tree d)).length =
        c + ((p :: ps).filter (usesStack tree d)).length := by
      rw [List.filter_cons]
      by_cases h : usesStack tree d p = true
      · simp only [h, if_pos trivial, List.length_cons]
        omega
      · simp [h]
    rw [hcount]

theorem parentBlocks_decomp (tree : Tree) (d : Int) :
    ∀ (ps : List Str) (c : Nat) (p : Str), p ∈ ps →
      ∃ pre post c2, parentBlocks tree d ps c =
        pre ++ parentBlock tree d p c2 ++ post := by
  intro ps
  induction ps with
  | nil => intro c p h; simp at h
  | cons q ps ih =>
    intro c p h
    rcases List.mem_cons.mp h with rfl | h2
    · exact ⟨[], parentBlocks tree d ps (if usesStack tree d p then c + 1 else c),
        (if usesStack tree d p then c + 1 else c), by simp [parentBlocks]⟩
    · rcases ih (if usesStack tree d q then c + 1 else c) p h2 with ⟨pre, post, c2, heq⟩
      exact ⟨parentBlock tree d q (if usesStack tree d q then c + 1 else c) ++ pre,
        post, c2, by simp [parentBlocks, heq, List.append_assoc]⟩

/-- C5: in the generated diagram, every parent with children in the node
set contributes one contiguous block of edge lines: one direct edge line
per child of depth strictly below `max_depth`, followed by a single nested
container (`leafContainerLines`) holding the depth-`max_depth` children —
a subgraph forced to top-to-bottom direction whose edges chain consecutive
leaves of the lexicographically sorted stack, closed by one edge from the
parent to the first sorted leaf.  The sorted stack is a sorted permutation
of the leaf children. -/
theorem generate_layout_per_parent (nodes : Dict) (d : Int) (r : Str)
    (parent : Str) (children : List Str)
    (hmem : (parent, children) ∈ build_tree nodes) :
    (∃ pre post stack_id,
      mermaid_lines nodes d r =
        pre
        ++ (children.filter (fun x => decide ((path_depth x : Int) < d))).map
            (fun x => (s "  ") ++ mermaid_id_for_path parent ++ (s " --> ")
              ++ mermaid_id_for_path x)
        ++ leafContainerLines parent stack_id
            (children.filter (fun x => decide ((path_depth x : Int) = d)))
        ++ post) ∧
    List.Sorted strLe (List.insertionSort strLe
      (children.filter (fun x => decide ((path_depth x : Int) = d)))) ∧
    (List.insertionSort strLe
      (children.filter (fun x => decide ((path_depth x : Int) = d)))).Perm
      (children.filter (fun x => decide ((path_depth x : Int) = d))) := by
  have hnd := build_tree_keys_nodup nodes
  have hlk : treeLookup (build_tree nodes) parent = children :=
    treeLookup_of_mem _ _ _ hnd hmem
  have hpmem : parent ∈ List.insertionSort strLe
      ((build_tree nodes).map (fun p => p.1)) := by
    rw [List.mem_insertionSort]
    exact List.mem_map.mpr ⟨(parent, children), hmem, rfl⟩
  have h1 : mermaid_lines nodes d r =
      ([s "flowchart LR", (s "  Model[") ++ (sanitize_label r ++ [']'])]
        ++ (List.insertionSort declKeyLe nodes).map declLine
        ++ (List.insertionSort strLe ((nodes.map (fun pn => pn.1)).filter
            (fun p => !('.' ∈ p : Bool)))).map
          (fun t2 => (s "  Model --> ") ++ mermaid_id_for_path t2))
      ++ parentBlocks (build_tree nodes) d
          (List.insertionSort strLe ((build_tree nodes).map (fun p => p.1))) 0 := by
    simp only [mermaid_lines]
    rw [foldl_parentStep_eq]
  rcases parentBlocks_decomp (build_tree nodes) d
      (List.insertionSort strLe ((build_tree nodes).map (fun p => p.1))) 0
      parent hpmem with ⟨pre1, post1, c2, hdec⟩
  have hblock : parentBlock (build_tree nodes) d parent c2 =
      (children.filter (fun x => decide ((path_depth x : Int) < d))).map
        (fun x => (s "  ") ++ mermaid_id_for_path parent ++ (s " --> ")
          ++ mermaid_id_for_path x)
      ++ leafContainerLines parent
          ((s "leafstack_") ++ mermaid_id_for_path parent ++ '_' :: natToStr c2)
          (children.filter (fun x => decide ((path_depth x : Int) = d))) := by
    unfold parentBlock
    rw [hlk]
  refine ⟨⟨([s "flowchart LR", (s "  Model[") ++ (sanitize_label r ++ [']'])]
      ++ (List.insertionSort declKeyLe nodes).map declLine
      ++ (List.insertionSort strLe ((nodes.map (fun pn => pn.1)).filter
          (fun p => !('.' ∈ p : Bool)))).map
        (fun t2 => (s "  Model --> ") ++ mermaid_id_for_path t2)) ++ pre1,
    post1,
    (s "leafstack_") ++ mermaid_id_for_path parent ++ '_' :: natToStr c2, ?_⟩,
    sorted_insertionSort_strLe _, List.perm_insertionSort _ _⟩
  rw [h1, hdec, hblock]
  simp [List.append_assoc]

/-- Witness for C5: the layout theorem instantiated on `stackFixture` at
maximum depth 2, where `a` has the two leaf children `a.b` and `a.c`. -/
theorem generate_layout_per_parent_witness :
    (∃ pre post stack_id,
      mermaid_lines stackFixture 2 (s "root") =
        pre
        ++ (([s "a.b", s "a.c"].filter
              (fun x => decide ((path_depth x : Int) < 2))).map
            (fun x => (s "  ") ++ mermaid_id_for_path (s "a") ++ (s " --> ")
              ++ mermaid_id_for_path x))
        ++ leafContainerLines (s "a") stack_id
            ([s "a.b", s "a.c"].filter
              (fun x => decide ((path_depth x : Int) = 2)))
        ++ post) ∧
    List.Sorted strLe (List.insertionSort strLe
      ([s "a.b", s "a.c"].filter
        (fun x => decide ((path_depth x : Int) = 2)))) ∧
    (List.insertionSort strLe
      ([s "a.b", s "a.c"].filter
        (fun x => decide ((path_depth x : Int) = 2)))).Perm
      ([s "a.b", s "a.c"].filter
        (fun x => decide ((path_depth x : Int) = 2))) :=
  generate_layout_per_parent stackFixture 2 (s "root") (s "a")
    [s "a.b", s "a.c"] (by decide)

/-- C10: the identifier mapping is not injective — the distinct paths
`a.b` and `a_b` share one mermaid identifier, and in the diagram generated
from a filtered set containing both, two declaration lines are emitted
under that single identifier (so the diagram engine merges them). -/
theorem mermaid_id_not_injective :
    mermaid_id_for_path (s "a.b") = mermaid_id_for_path (s "a_b") ∧
    (s "a.b") ≠ (s "a_b") ∧
    ((mermaid_lines (filter_by_max_depth (ensure_parents collidingNodes) 2) 2
        (s "M")).filter (fun l => l.take 6 = s "  a_b[")).length = 2 := by
  refine ⟨rfl, by decide, rfl⟩

end XRayViz
